import Mathlib

/-
  Shallow embedding of the core of GaruGaru/aws-sqs-exporter (package sqs,
  exporter.go) in Lean 4.

  Strings are modelled as Lean String/List Char (Go iterates runes here; the
  only byte-level operation, slicing after the last '/', is rune-safe since
  '/' is ASCII).  Machine integers (Go int64) are modelled as Int; the one
  arithmetic operation performed on them (metric.Messages +
  metric.MessagesInFlight in Sync) is modelled with explicit two's-complement
  wrapping (wrap64).  The remote AWS SDK calls (SQS ListQueues, ListQueueTags,
  GetQueueAttributes; CloudWatch GetMetricStatistics) are modelled by an
  environment record of responses, and every embedded operation additionally
  returns the list of remote calls it issued, so that claims about which
  remote calls are (not) made can be stated.  Fallible Go functions returning
  (T, error) become Except String T; a Go runtime panic (which is distinct
  from returning an error) is modelled by the GoOutcome.crash constructor.
-/

namespace AwsSqsExporter

/-! ## Tag normalization (normalizeTag, exporter.go)

Go source:
  var wordsRe = regexp.MustCompile([^ A-Za-z \d]+)   -- the class [^A-Za-z\d]
  func normalizeTag(name string) string \x7b
      name = strings.ToLower(name)
      name = wordsRe.ReplaceAllString(name, "_")
      return name
  \x7d
-/

/-- Decidable numeric range test on code points. -/
def between (lo hi n : Nat) : Bool := decide (lo ≤ n ∧ n ≤ hi)

/-- The character class `[A-Za-z\d]` of the Go regexp `wordsRe` (RE2's `\d`
is ASCII `[0-9]`; the class is tested per rune). -/
def goIsAlnum (c : Char) : Bool :=
  between 65 90 c.toNat || between 97 122 c.toNat || between 48 57 c.toNat

/-- Model of `strings.ToLower` at a single rune (the Unicode simple case
mapping `unicode.ToLower` applied per rune), restricted to what is
observable through `normalizeTag`.  ASCII `A`-`Z` map to `a`-`z`, and
exactly two non-ASCII code points have a simple lowercase mapping inside
ASCII: U+212A KELVIN SIGN lowercases to `k` and U+0130 LATIN CAPITAL
LETTER I WITH DOT ABOVE lowercases to `i`.  Every other rune either is
uncased ASCII (mapped to itself) or is non-ASCII and stays non-ASCII under
the case mapping; such a rune lies outside `[A-Za-z\d]` both before and
after lowering and sits inside a run that the replacement collapses to an
underscore, so its exact lowered code point never reaches the output and
mapping it to itself leaves `normalizeTag` unchanged at every input. -/
def toLowerGo (c : Char) : Char :=
  if between 65 90 c.toNat then Char.ofNat (c.toNat + 32)
  else if c.toNat = 0x212A then 'k'
  else if c.toNat = 0x130 then 'i'
  else c

/-- Model of `wordsRe.ReplaceAllString(name, "_")`: each maximal run of
runes outside `[A-Za-z\d]` is replaced by a single underscore.  The Boolean
argument records whether the scan is currently inside such a run (the
underscore for the run has already been emitted). -/
def collapseAux : Bool → List Char → List Char
  | _, [] => []
  | inRun, c :: cs =>
    if goIsAlnum c then c :: collapseAux false cs
    else if inRun then collapseAux true cs
    else '_' :: collapseAux true cs

/-- `wordsRe.ReplaceAllString(s, "_")`. -/
def replaceNonAlnumRuns (l : List Char) : List Char := collapseAux false l

/-- `normalizeTag` from exporter.go: lowercase, then collapse every maximal
run of non-alphanumeric runes to one underscore. -/
def normalizeTag (s : String) : String :=
  ⟨replaceNonAlnumRuns (s.toList.map toLowerGo)⟩

theorem length_dropWhile_le {α : Type} (p : α → Bool) (l : List α) :
    (l.dropWhile p).length ≤ l.length := by
  induction l with
  | nil => simp [List.dropWhile]
  | cons c cs ih =>
    simp only [List.dropWhile]
    cases p c with
    | true => exact Nat.le_succ_of_le ih
    | false => simp

/-- Splits a list of characters into its maximal runs of constant class,
where a character's class is whether its lowercased form is an ASCII
alphanumeric (used only to state the specification of `normalizeTag`:
concatenating the result re-gives the input, and each returned run is a
maximal segment whose characters all lower into `[a-z0-9]` or none do).
The class is taken after lowering because the replacement regexp runs on
the already-lowercased string: besides ASCII letters and digits, exactly
U+212A and U+0130 (which lowercase to `k` and `i`) behave as
alphanumerics. -/
def splitRuns : List Char → List (List Char)
  | [] => []
  | c :: cs =>
    (c :: cs.takeWhile
        (fun d => goIsAlnum (toLowerGo d) == goIsAlnum (toLowerGo c))) ::
      splitRuns (cs.dropWhile
        (fun d => goIsAlnum (toLowerGo d) == goIsAlnum (toLowerGo c)))
termination_by l => l.length
decreasing_by
  simp only [List.length_cons]
  exact Nat.lt_succ_of_le (length_dropWhile_le _ _)

/-- Specification-side restatement of the behaviour of `normalizeTag`: the
input is split into maximal runs of constant class (lowering into ASCII
alphanumeric or not); runs that lower into `[a-z0-9]` are lowercased and
kept, every other maximal run becomes exactly one underscore. -/
def normalizeTagRuns (s : String) : String :=
  ⟨((splitRuns s.toList).map
      (fun r => if r.all (fun d => goIsAlnum (toLowerGo d)) then r.map toLowerGo
        else ['_'])).flatten⟩

/-- Output alphabet of the normalizer: lowercase ASCII letters, digits,
underscore. -/
def isLabelChar (c : Char) : Bool :=
  between 97 122 c.toNat || between 48 57 c.toNat || between 95 95 c.toNat

/-! ## queueNameFromUrl (exporter.go)

Go source:
  func queueNameFromUrl(url string) string \x7b
      return url[strings.LastIndex(url, "/")+1:]
  \x7d
-/

/-- `strings.LastIndex(url, "/")`: index of the last '/' or -1.  ('/' is a
single ASCII byte, so byte indices and rune indices of '/' occurrences and
the slice boundary after one coincide.) -/
def goLastIndexSlash : List Char → Int
  | [] => -1
  | c :: cs =>
    let r := goLastIndexSlash cs
    if 0 ≤ r then r + 1
    else if c = '/' then 0 else -1

/-- `queueNameFromUrl`: the suffix after the last '/', the whole string if
there is none. -/
def queueNameFromUrl (url : String) : String :=
  ⟨url.toList.drop (goLastIndexSlash url.toList + 1).toNat⟩

/-! ## strconv.ParseInt(s, 10, 64) -/

/-- Value of a nonempty all-digit string, base 10. -/
def digitsVal (ds : List Char) : Nat :=
  ds.foldl (fun a c => a * 10 + (c.toNat - 48)) 0

/-- Model of `strconv.ParseInt(s, 10, 64)`: optional sign, at least one
decimal digit, value within the int64 range; anything else is an error
(the Go caller only ever branches on err being non-nil, so the error payload
is a fixed string). -/
def goParseInt64 (s : String) : Except String Int :=
  let cs := s.toList
  let signed : Bool × List Char :=
    match cs with
    | '+' :: rest => (false, rest)
    | '-' :: rest => (true, rest)
    | rest => (false, rest)
  let ds := signed.2
  if ds.isEmpty then .error "invalid syntax"
  else if ds.all Char.isDigit then
    let v : Int := if signed.1 then -(digitsVal ds : Int) else (digitsVal ds : Int)
    if v < -(2 ^ 63) ∨ (2 ^ 63 - 1 : Int) < v then .error "value out of range"
    else .ok v
  else .error "invalid syntax"

/-- Two's-complement wrap of Go int64 arithmetic. -/
def wrap64 (x : Int) : Int := (x + 2 ^ 63) % 2 ^ 64 - 2 ^ 63

/-! ## Remote environment and call log -/

/-- One remote (AWS) read issued by the exporter. -/
inductive RemoteCall where
  | listQueuesCall : RemoteCall
  | listQueueTagsCall : String → RemoteCall
  | getQueueAttributesCall : String → RemoteCall
  | getMetricStatisticsCall : String → RemoteCall
deriving DecidableEq

/-- The two attributes requested from GetQueueAttributes, as the decimal
strings the API returns them as. -/
structure QueueAttributes where
  approximateNumberOfMessages : String
  approximateNumberOfMessagesNotVisible : String
deriving DecidableEq

/-- Responses of the remote AWS APIs consumed by the exporter.
GetMetricStatistics is modelled by `none` when the response carries no
datapoint (`Datapoints == nil`) and `some m` when it carries one whose
`Maximum`, truncated to int64 as the Go code does, is `m`. -/
structure AwsEnv where
  listQueuesResp : Except String (List String)
  listQueueTagsResp : String → Except String (List (String × String))
  getQueueAttributesResp : String → Except String QueueAttributes
  getMetricStatisticsResp : String → Except String (Option Int)

/-- Result of a Go function call: normal return, returned error, or runtime
panic (which unwinds instead of returning). -/
inductive GoOutcome (α : Type) where
  | ok : α → GoOutcome α
  | fail : String → GoOutcome α
  | crash : String → GoOutcome α
deriving DecidableEq

/-! ## Data model (exporter.go structs) -/

structure sqsQueue where
  Name : String
  Url : String
  Tags : List (String × String)
deriving DecidableEq

structure QueueMetric where
  QueueName : String
  Tags : List (String × String)
  Messages : Int
  MessagesInFlight : Int
  AgeOfOldestMessageSeconds : Int
  MessagesTotal : Int
deriving DecidableEq

structure queueTag where
  Original : String
  Normalized : String
deriving DecidableEq

/-- `createQueueTag` from exporter.go. -/
def createQueueTag (original : String) : queueTag :=
  { Original := original, Normalized := normalizeTag original }

structure queueListRequest where
  includeTags : Bool
deriving DecidableEq

/-- The label names the four gauges are registered with in `NewExporter`:
`append([]string\x7b"queue_name"\x7d, additionalLabels...)` where
`additionalLabels[i] = createQueueTag(exportedTags[i]).Normalized`. -/
def exporterLabelNames (exportedTags : List String) : List String :=
  "queue_name" :: (exportedTags.map createQueueTag).map (fun t => t.Normalized)

/-! ## Queue directory (listQueues) -/

/-- Go map lookup `tags[k]` with the string zero value for a missing key. -/
def lookupTag (tags : List (String × String)) (k : String) : String :=
  ((tags.find? (fun p => p.1 == k)).map Prod.snd).getD ""

/-- The per-URL loop body of `listQueues`: optionally fetch the queue's tag
map (aborting everything on the first error), then build the `sqsQueue`
value for each URL. -/
def listQueuesLoop (env : AwsEnv) (includeTags : Bool) :
    List String → Except String (List sqsQueue) × List RemoteCall
  | [] => (.ok [], [])
  | url :: rest =>
    if includeTags then
      match env.listQueueTagsResp url with
      | .error e => (.error e, [RemoteCall.listQueueTagsCall url])
      | .ok ts =>
        let next := listQueuesLoop env includeTags rest
        (next.1.map
          (fun qs => { Name := queueNameFromUrl url, Url := url, Tags := ts } :: qs),
         RemoteCall.listQueueTagsCall url :: next.2)
    else
      let next := listQueuesLoop env includeTags rest
      (next.1.map
        (fun qs => { Name := queueNameFromUrl url, Url := url, Tags := [] } :: qs),
       next.2)

/-- `listQueues` from exporter.go: one ListQueues call, then per queue URL an
optional ListQueueTags call. -/
def listQueues (env : AwsEnv) (req : queueListRequest) :
    Except String (List sqsQueue) × List RemoteCall :=
  match env.listQueuesResp with
  | .error e => (.error e, [RemoteCall.listQueuesCall])
  | .ok urls =>
    let body := listQueuesLoop env req.includeTags urls
    (body.1, RemoteCall.listQueuesCall :: body.2)

/-! ## Queue enricher (QueueAgeOfOldestMessage, fetchQueuesMetrics) -/

/-- `QueueAgeOfOldestMessage` from exporter.go: one GetMetricStatistics call;
a transport error propagates, a missing datapoint yields age 0 and no
error. -/
def QueueAgeOfOldestMessage (env : AwsEnv) (queueName : String) :
    Except String Int × List RemoteCall :=
  match env.getMetricStatisticsResp queueName with
  | .error e => (.error e, [RemoteCall.getMetricStatisticsCall queueName])
  | .ok none => (.ok 0, [RemoteCall.getMetricStatisticsCall queueName])
  | .ok (some m) => (.ok m, [RemoteCall.getMetricStatisticsCall queueName])

/-- `fetchQueuesMetrics` from exporter.go (the per-queue enrichment): fetch
and parse the two counts, then look the age up only when `messages > 0`,
otherwise fix it at 0 with no remote call.  `MessagesTotal` is never
assigned in the Go struct literal, so it carries the int64 zero value. -/
def fetchQueuesMetrics (env : AwsEnv) (queue : sqsQueue) :
    Except String QueueMetric × List RemoteCall :=
  let attrCall := [RemoteCall.getQueueAttributesCall queue.Url]
  match env.getQueueAttributesResp queue.Url with
  | .error e => (.error e, attrCall)
  | .ok attrs =>
    match goParseInt64 attrs.approximateNumberOfMessages with
    | .error e => (.error e, attrCall)
    | .ok messages =>
      match goParseInt64 attrs.approximateNumberOfMessagesNotVisible with
      | .error e => (.error e, attrCall)
      | .ok messagesInFlight =>
        if 0 < messages then
          match QueueAgeOfOldestMessage env queue.Name with
          | (.error e, cs) => (.error e, attrCall ++ cs)
          | (.ok age, cs) =>
            (.ok { QueueName := queue.Name, Tags := queue.Tags,
                   Messages := messages, MessagesInFlight := messagesInFlight,
                   AgeOfOldestMessageSeconds := age, MessagesTotal := 0 },
             attrCall ++ cs)
        else
          (.ok { QueueName := queue.Name, Tags := queue.Tags,
                 Messages := messages, MessagesInFlight := messagesInFlight,
                 AgeOfOldestMessageSeconds := 0, MessagesTotal := 0 },
           attrCall)

/-! ## Collection coordinator (QueuesMetrics)

The Go fan-out launches one goroutine per queue; each goroutine runs
  info, err := e.fetchQueuesMetrics(queue)
  if err != nil \x7b errors <- err \x7d
  results <- info
so every goroutine, including a failed one, sends its `info` pointer (nil on
error) to the buffered results channel.  After the join the collection loop
executes `resultsSlice = append(resultsSlice, *r)` for every received
pointer, dereferencing the nil pointers of failed fetches — a runtime panic
— before the error channel is ever drained.  Channel delivery order is
scheduler dependent; it is modelled here as queue order, which no stated
claim distinguishes (a nil pointer anywhere in the channel panics the loop,
and on full success only the set of results matters up to order). -/

def exceptIsOk {α : Type} : Except String α → Bool
  | .ok _ => true
  | .error _ => false

def exceptVal? {α : Type} : Except String α → Option α
  | .ok a => some a
  | .error _ => none

/-- The body of `QueuesMetrics` parametrized by the already-decided
`queueListRequest`. -/
def QueuesMetricsWith (env : AwsEnv) (req : queueListRequest) :
    GoOutcome (List QueueMetric) × List RemoteCall :=
  match listQueues env req with
  | (.error e, cs) => (.fail e, cs)
  | (.ok queues, cs) =>
    let fetched := queues.map (fun q => fetchQueuesMetrics env q)
    let calls := cs ++ (fetched.map Prod.snd).flatten
    if fetched.all (fun r => exceptIsOk r.1) then
      (.ok (fetched.filterMap (fun r => exceptVal? r.1)), calls)
    else
      (.crash "invalid memory address or nil pointer dereference", calls)

/-- `QueuesMetrics` from exporter.go: discovery with
`includeTags: len(e.exportedTags) > 0`, then the fan-out join above. -/
def QueuesMetrics (env : AwsEnv) (exportedTags : List queueTag) :
    GoOutcome (List QueueMetric) × List RemoteCall :=
  QueuesMetricsWith env { includeTags := decide (0 < exportedTags.length) }

/-! ## Publishing (Sync) -/

/-- One gauge vector: the published value, if any, for each label set.  The
Go code passes `float64(v)` of an int64 `v` to `Set`; the gauge is modelled
as holding that int64 argument. -/
def GaugeVec : Type := List (String × String) → Option Int

/-- In-place `With(labels).Set(v)`. -/
def setGauge (g : GaugeVec) (labels : List (String × String)) (v : Int) : GaugeVec :=
  fun l => if l = labels then some v else g l

/-- The four gauge vectors registered in `NewExporter`. -/
structure GaugeState where
  queueMessagesGauge : GaugeVec
  queueAgeOfOldestMessageGauge : GaugeVec
  queueMessagesInFlightGauge : GaugeVec
  queueMessageTotalsGauge : GaugeVec

/-- The `prometheus.Labels` map built for one metric in `Sync`:
`queue_name` first, then one entry per configured exported tag, whose value
is the Go map lookup `metric.Tags[tag.Original]` (empty string when the
queue lacks the tag).  Modelled as the association list in insertion
order. -/
def metricLabels (exportedTags : List queueTag) (metric : QueueMetric) :
    List (String × String) :=
  ("queue_name", metric.QueueName) ::
    exportedTags.map (fun t => (t.Normalized, lookupTag metric.Tags t.Original))

/-- The body of the publish loop in `Sync` for one metric: four `Set` calls
under the same label set; the total gauge receives the int64 sum
`metric.Messages + metric.MessagesInFlight` computed on the spot. -/
def publishMetric (exportedTags : List queueTag) (st : GaugeState)
    (metric : QueueMetric) : GaugeState :=
  let labels := metricLabels exportedTags metric
  { queueMessagesGauge := setGauge st.queueMessagesGauge labels metric.Messages,
    queueAgeOfOldestMessageGauge :=
      setGauge st.queueAgeOfOldestMessageGauge labels metric.AgeOfOldestMessageSeconds,
    queueMessagesInFlightGauge :=
      setGauge st.queueMessagesInFlightGauge labels metric.MessagesInFlight,
    queueMessageTotalsGauge :=
      setGauge st.queueMessageTotalsGauge labels
        (wrap64 (metric.Messages + metric.MessagesInFlight)) }

/-- `Sync` from exporter.go: collect, return any error (or propagate a
panic) with the gauges untouched, otherwise publish every snapshot. -/
def Sync (env : AwsEnv) (exportedTags : List queueTag) (st : GaugeState) :
    GoOutcome Unit × GaugeState :=
  match QueuesMetrics env exportedTags with
  | (.fail e, _) => (.fail e, st)
  | (.crash m, _) => (.crash m, st)
  | (.ok ms, _) => (.ok (), ms.foldl (publishMetric exportedTags) st)

/-! ## Character-level lemmas for the normalizer -/

theorem between_iff {lo hi n : Nat} : between lo hi n = true ↔ lo ≤ n ∧ n ≤ hi := by
  simp [between]

theorem char_eq_of_toNat_eq {c d : Char} (h : c.toNat = d.toNat) : c = d :=
  Char.ext (UInt32.ext h)

theorem ofNat_add32_toNat {n : Nat} (h1 : 65 ≤ n) (h2 : n ≤ 90) :
    (Char.ofNat (n + 32)).toNat = n + 32 := by
  interval_cases n <;> decide

theorem toLowerGo_toNat_of_upper {c : Char} (h : between 65 90 c.toNat = true) :
    (toLowerGo c).toNat = c.toNat + 32 := by
  obtain ⟨h1, h2⟩ := between_iff.mp h
  simp only [toLowerGo, h, if_true]
  exact ofNat_add32_toNat h1 h2

theorem goIsAlnum_cases {c : Char} (h : goIsAlnum c = true) :
    (between 65 90 c.toNat = true ∨ between 97 122 c.toNat = true) ∨
      between 48 57 c.toNat = true := by
  simpa [goIsAlnum] using h

theorem isLabelChar_cases {c : Char} (h : isLabelChar c = true) :
    (between 97 122 c.toNat = true ∨ between 48 57 c.toNat = true) ∨
      between 95 95 c.toNat = true := by
  simpa [isLabelChar] using h

/-- A character in the normalizer's output alphabet (lowercase letter,
digit, underscore) is fixed by the case mapping: it is not ASCII uppercase
and it is neither U+212A nor U+0130. -/
theorem toLowerGo_of_labelChar {c : Char} (h : isLabelChar c = true) :
    toLowerGo c = c := by
  have hranges : (97 ≤ c.toNat ∧ c.toNat ≤ 122) ∨ (48 ≤ c.toNat ∧ c.toNat ≤ 57) ∨
      c.toNat = 95 := by
    rcases isLabelChar_cases h with (h'' | h'') | h''
    · exact Or.inl (between_iff.mp h'')
    · exact Or.inr (Or.inl (between_iff.mp h''))
    · obtain ⟨h1, h2⟩ := between_iff.mp h''
      exact Or.inr (Or.inr (by omega))
  have hA : ¬ between 65 90 c.toNat = true := by
    simp only [between, decide_eq_true_eq]
    omega
  have hB : ¬ c.toNat = 0x212A := by omega
  have hC : ¬ c.toNat = 0x130 := by omega
  simp only [toLowerGo, if_neg hA, if_neg hB, if_neg hC]

theorem isLabelChar_of_alnum_lowered {c : Char} (h : goIsAlnum (toLowerGo c) = true) :
    isLabelChar (toLowerGo c) = true := by
  by_cases hu : between 65 90 c.toNat = true
  · have ht := toLowerGo_toNat_of_upper hu
    obtain ⟨h1, h2⟩ := between_iff.mp hu
    simp only [isLabelChar, ht]
    have hmid : between 97 122 (c.toNat + 32) = true := between_iff.mpr (by omega)
    simp [hmid]
  · by_cases hk : c.toNat = 0x212A
    · have hlk : toLowerGo c = 'k' := by
        simp only [toLowerGo, if_neg hu, if_pos hk]
      rw [hlk]
      decide
    · by_cases hi : c.toNat = 0x130
      · have hli : toLowerGo c = 'i' := by
          simp only [toLowerGo, if_neg hu, if_neg hk, if_pos hi]
        rw [hli]
        decide
      · have hfix : toLowerGo c = c := by
          simp only [toLowerGo, if_neg hu, if_neg hk, if_neg hi]
        rw [hfix] at h ⊢
        rcases goIsAlnum_cases h with (h'' | h'') | h''
        · exact absurd h'' hu
        · simp [isLabelChar, h'']
        · simp [isLabelChar, h'']

theorem underscore_of_labelChar_not_alnum {c : Char} (hl : isLabelChar c = true)
    (ha : goIsAlnum c = false) : c = '_' := by
  rcases isLabelChar_cases hl with (h'' | h'') | h''
  · have : goIsAlnum c = true := by simp [goIsAlnum, h'']
    rw [this] at ha
    cases ha
  · have : goIsAlnum c = true := by simp [goIsAlnum, h'']
    rw [this] at ha
    cases ha
  · obtain ⟨h1, h2⟩ := between_iff.mp h''
    apply char_eq_of_toNat_eq
    have h95 : c.toNat = 95 := by omega
    rw [h95]
    decide

/-! ## Structure of collapseAux -/

theorem collapse_append_alnum :
    ∀ (t m : List Char), (∀ c ∈ t, goIsAlnum c = true) →
      collapseAux false (t ++ m) = t ++ collapseAux false m
  | [], m, _ => rfl
  | c :: t, m, h => by
    have hc := h c (List.mem_cons_self c t)
    simp only [List.cons_append, collapseAux, hc, if_true, List.append_eq]
    rw [collapse_append_alnum t m (fun d hd => h d (List.mem_cons_of_mem c hd))]

theorem collapse_skip_run :
    ∀ (u m : List Char), (∀ c ∈ u, goIsAlnum c = false) →
      collapseAux true (u ++ m) = collapseAux true m
  | [], m, _ => rfl
  | c :: u, m, h => by
    have hc := h c (List.mem_cons_self c u)
    simp only [List.cons_append, collapseAux, hc, Bool.false_eq_true, if_false, if_true,
      List.append_eq]
    exact collapse_skip_run u m (fun d hd => h d (List.mem_cons_of_mem c hd))

theorem collapse_true_eq_false (m : List Char)
    (h : ∀ d, m.head? = some d → goIsAlnum d = true) :
    collapseAux true m = collapseAux false m := by
  cases m with
  | nil => rfl
  | cons d ds =>
    have hd := h d rfl
    simp [collapseAux, hd]

theorem head?_dropWhile_false {α : Type} (p : α → Bool) :
    ∀ (l : List α) (d : α), (l.dropWhile p).head? = some d → p d = false
  | [], d, h => by simp [List.dropWhile] at h
  | c :: cs, d, h => by
    by_cases hp : p c = true
    · rw [List.dropWhile_cons_of_pos hp] at h
      exact head?_dropWhile_false p cs d h
    · rw [List.dropWhile_cons_of_neg hp] at h
      cases h
      exact Bool.eq_false_iff.mpr hp

theorem head?_collapse_true :
    ∀ (m : List Char) (d : Char), (collapseAux true m).head? = some d →
      goIsAlnum d = true
  | [], d, h => by simp [collapseAux] at h
  | c :: cs, d, h => by
    by_cases hc : goIsAlnum c = true
    · simp only [collapseAux, hc, if_true, List.head?_cons] at h
      cases h
      exact hc
    · simp only [collapseAux, Bool.eq_false_iff.mpr hc, Bool.false_eq_true, if_false,
        if_true] at h
      exact head?_collapse_true cs d h

theorem collapse_chars :
    ∀ (b : Bool) (m : List Char) (c : Char), c ∈ collapseAux b m →
      c = '_' ∨ (c ∈ m ∧ goIsAlnum c = true)
  | _, [], _, h => by simp [collapseAux] at h
  | b, d :: ds, c, h => by
    by_cases hd : goIsAlnum d = true
    · simp only [collapseAux, hd, if_true, List.mem_cons] at h
      rcases h with rfl | h
      · exact Or.inr ⟨List.mem_cons_self c ds, hd⟩
      · rcases collapse_chars false ds c h with h' | ⟨hm, ha⟩
        · exact Or.inl h'
        · exact Or.inr ⟨List.mem_cons_of_mem d hm, ha⟩
    · have hd' := Bool.eq_false_iff.mpr hd
      cases b
      · simp only [collapseAux, hd', Bool.false_eq_true, if_false, List.mem_cons] at h
        rcases h with rfl | h
        · exact Or.inl rfl
        · rcases collapse_chars true ds c h with h' | ⟨hm, ha⟩
          · exact Or.inl h'
          · exact Or.inr ⟨List.mem_cons_of_mem d hm, ha⟩
      · simp only [collapseAux, hd', Bool.false_eq_true, if_false, if_true] at h
        rcases collapse_chars true ds c h with h' | ⟨hm, ha⟩
        · exact Or.inl h'
        · exact Or.inr ⟨List.mem_cons_of_mem d hm, ha⟩

/-- Every character that `normalizeTag` emits is a lowercase letter, digit,
or underscore. -/
theorem labelChars_of_normalized (l : List Char) :
    ∀ c ∈ collapseAux false (l.map toLowerGo), isLabelChar c = true := by
  intro c hc
  rcases collapse_chars false _ c hc with rfl | ⟨hm, ha⟩
  · decide
  · obtain ⟨d, _, rfl⟩ := List.mem_map.mp hm
    exact isLabelChar_of_alnum_lowered ha

/-- The characters `normalizeTag` emits never contain two adjacent
non-alphanumeric characters: after the underscore for a run, the next
emitted character (if any) is alphanumeric. -/
theorem collapse_chain :
    ∀ (m : List Char) (b : Bool),
      List.Chain' (fun a c => goIsAlnum a = false → goIsAlnum c = true)
        (collapseAux b m)
  | [], _ => by simp [collapseAux]
  | d :: ds, b => by
    by_cases hd : goIsAlnum d = true
    · simp only [collapseAux, hd, if_true]
      rw [List.chain'_cons']
      refine ⟨?_, collapse_chain ds false⟩
      intro y _ hfalse
      rw [hd] at hfalse
      cases hfalse
    · have hd' := Bool.eq_false_iff.mpr hd
      cases b
      · simp only [collapseAux, hd', Bool.false_eq_true, if_false]
        rw [List.chain'_cons']
        refine ⟨?_, collapse_chain ds true⟩
        intro y hy _
        exact head?_collapse_true ds y (Option.mem_def.mp hy)
      · simp only [collapseAux, hd', Bool.false_eq_true, if_false, if_true]
        exact collapse_chain ds true

/-- Collapsing fixes any string over the output alphabet whose
non-alphanumeric characters are all immediately followed by an
alphanumeric character (or end the string). -/
theorem collapse_id :
    ∀ m : List Char, (∀ c ∈ m, isLabelChar c = true) →
      List.Chain' (fun a c => goIsAlnum a = false → goIsAlnum c = true) m →
      collapseAux false m = m
  | [], _, _ => rfl
  | c :: cs, hout, hchain => by
    by_cases hc : goIsAlnum c = true
    · simp only [collapseAux, hc, if_true]
      rw [collapse_id cs (fun d hd => hout d (List.mem_cons_of_mem c hd)) hchain.tail]
    · have hc' := Bool.eq_false_iff.mpr hc
      have hcu : c = '_' :=
        underscore_of_labelChar_not_alnum (hout c (List.mem_cons_self c cs)) hc'
      simp only [collapseAux, hc', Bool.false_eq_true, if_false]
      cases cs with
      | nil => simp [collapseAux, hcu]
      | cons d ds =>
        have hd : goIsAlnum d = true := (List.chain'_cons.mp hchain).1 hc'
        have hrec : collapseAux false (d :: ds) = d :: ds :=
          collapse_id (d :: ds) (fun e he => hout e (List.mem_cons_of_mem c he))
            (List.chain'_cons.mp hchain).2
        have hswap : collapseAux true (d :: ds) = collapseAux false (d :: ds) :=
          collapse_true_eq_false _ (fun e he => by
            rw [List.head?_cons] at he
            cases he
            exact hd)
        rw [hswap, hrec, hcu]

/-- `normalizeTag` computes exactly the run-splitting specification: runs
that lower into ASCII alphanumerics are lowercased and kept, one underscore
per other maximal run. -/
theorem collapse_eq_runs :
    ∀ l : List Char,
      collapseAux false (l.map toLowerGo) =
        ((splitRuns l).map
          (fun r => if r.all (fun d => goIsAlnum (toLowerGo d)) then r.map toLowerGo
            else ['_'])).flatten
  | [] => by rw [splitRuns]; rfl
  | c :: cs => by
    have hsplit : splitRuns (c :: cs) =
        (c :: cs.takeWhile
            (fun d => goIsAlnum (toLowerGo d) == goIsAlnum (toLowerGo c))) ::
          splitRuns (cs.dropWhile
            (fun d => goIsAlnum (toLowerGo d) == goIsAlnum (toLowerGo c))) := by
      rw [splitRuns]
    have hcs : cs.takeWhile
          (fun d => goIsAlnum (toLowerGo d) == goIsAlnum (toLowerGo c)) ++
        cs.dropWhile
          (fun d => goIsAlnum (toLowerGo d) == goIsAlnum (toLowerGo c)) = cs :=
      List.takeWhile_append_dropWhile _ _
    have ih := collapse_eq_runs (cs.dropWhile
      (fun d => goIsAlnum (toLowerGo d) == goIsAlnum (toLowerGo c)))
    by_cases hc : goIsAlnum (toLowerGo c) = true
    · have ht : ∀ d ∈ cs.takeWhile
            (fun e => goIsAlnum (toLowerGo e) == goIsAlnum (toLowerGo c)),
          goIsAlnum (toLowerGo d) = true := by
        intro d hd
        have hpd := List.mem_takeWhile_imp hd
        have heq : goIsAlnum (toLowerGo d) = goIsAlnum (toLowerGo c) := by
          simpa using hpd
        rw [heq, hc]
      have hall : (c :: cs.takeWhile
            (fun e => goIsAlnum (toLowerGo e) == goIsAlnum (toLowerGo c))).all
          (fun d => goIsAlnum (toLowerGo d)) = true := by
        rw [List.all_eq_true]
        intro d hd
        rcases List.mem_cons.mp hd with rfl | hd'
        · exact hc
        · exact ht d hd'
      have hmt : ∀ e ∈ (cs.takeWhile
            (fun d => goIsAlnum (toLowerGo d) == goIsAlnum (toLowerGo c))).map toLowerGo,
          goIsAlnum e = true := by
        intro e he
        obtain ⟨d, hd, rfl⟩ := List.mem_map.mp he
        exact ht d hd
      have hL : collapseAux false (List.map toLowerGo cs) =
          (cs.takeWhile
              (fun d => goIsAlnum (toLowerGo d) == goIsAlnum (toLowerGo c))).map
            toLowerGo ++
            collapseAux false
              ((cs.dropWhile
                  (fun d => goIsAlnum (toLowerGo d) == goIsAlnum (toLowerGo c))).map
                toLowerGo) := by
        conv_lhs => rw [← hcs]
        rw [List.map_append, collapse_append_alnum _ _ hmt]
      have hhead : collapseAux false (toLowerGo c :: List.map toLowerGo cs) =
          toLowerGo c :: collapseAux false (List.map toLowerGo cs) := by
        simp only [collapseAux, hc, if_true]
      rw [hsplit]
      simp only [List.map_cons, List.flatten_cons]
      rw [if_pos hall]
      simp only [List.map_cons, List.cons_append]
      rw [hhead, hL, ih]
    · have hc' := Bool.eq_false_iff.mpr hc
      have ht : ∀ d ∈ cs.takeWhile
            (fun e => goIsAlnum (toLowerGo e) == goIsAlnum (toLowerGo c)),
          goIsAlnum (toLowerGo d) = false := by
        intro d hd
        have hpd := List.mem_takeWhile_imp hd
        have heq : goIsAlnum (toLowerGo d) = goIsAlnum (toLowerGo c) := by
          simpa using hpd
        rw [heq, hc']
      have hnall : ¬ ((c :: cs.takeWhile
            (fun e => goIsAlnum (toLowerGo e) == goIsAlnum (toLowerGo c))).all
          (fun d => goIsAlnum (toLowerGo d)) = true) := by
        simp [hc']
      have hmt : ∀ e ∈ (cs.takeWhile
            (fun d => goIsAlnum (toLowerGo d) == goIsAlnum (toLowerGo c))).map toLowerGo,
          goIsAlnum e = false := by
        intro e he
        obtain ⟨d, hd, rfl⟩ := List.mem_map.mp he
        exact ht d hd
      have hL : collapseAux true (List.map toLowerGo cs) =
          collapseAux true
            ((cs.dropWhile
                (fun d => goIsAlnum (toLowerGo d) == goIsAlnum (toLowerGo c))).map
              toLowerGo) := by
        conv_lhs => rw [← hcs]
        rw [List.map_append, collapse_skip_run _ _ hmt]
      have hTF : collapseAux true
            ((cs.dropWhile
                (fun d => goIsAlnum (toLowerGo d) == goIsAlnum (toLowerGo c))).map
              toLowerGo) =
          collapseAux false
            ((cs.dropWhile
                (fun d => goIsAlnum (toLowerGo d) == goIsAlnum (toLowerGo c))).map
              toLowerGo) := by
        apply collapse_true_eq_false
        intro e he
        rw [List.head?_map] at he
        cases hh : List.head? (cs.dropWhile
            (fun d => goIsAlnum (toLowerGo d) == goIsAlnum (toLowerGo c))) with
        | none => rw [hh] at he; cases he
        | some d =>
          rw [hh] at he
          cases he
          have hpd := head?_dropWhile_false _ _ d hh
          cases hda : goIsAlnum (toLowerGo d) with
          | true => rfl
          | false =>
            rw [hda, hc'] at hpd
            simp at hpd
      have hhead : collapseAux false (toLowerGo c :: List.map toLowerGo cs) =
          '_' :: collapseAux true (List.map toLowerGo cs) := by
        simp only [collapseAux, hc', Bool.false_eq_true, if_false]
      rw [hsplit]
      simp only [List.map_cons, List.flatten_cons]
      rw [if_neg hnall]
      simp only [List.singleton_append]
      rw [hhead, hL, hTF, ih]
termination_by l => l.length
decreasing_by
  simp only [List.length_cons]
  exact Nat.lt_succ_of_le (length_dropWhile_le _ _)

/-! ## Claims C3 and C4 -/

/-- Claim C3, counterexample to the claim as stated: U+212A KELVIN SIGN is
not an ASCII alphanumeric, so the claim's run-collapse clause says this
one-character non-alphanumeric run of the input is replaced by exactly one
underscore — but Go's `strings.ToLower` maps U+212A to the ASCII letter
`k`, which the regexp then keeps, so `normalizeTag` returns "k", not "_".
(Under the other reading, where "alphanumeric" is Unicode-wide, the claim
fails instead at e.g. U+00C4, a Unicode letter the function does replace
by an underscore.) -/
theorem normalizeTag_ascii_runs_refuted :
    goIsAlnum (Char.ofNat 0x212A) = false ∧
    normalizeTag (String.mk [Char.ofNat 0x212A]) = "k" ∧
    normalizeTag (String.mk [Char.ofNat 0x212A]) ≠ "_" := by
  decide

/-- Claim C3 (amended): `normalizeTag` terminates on every input (it is a
total Lean function), returns only lowercase ASCII letters, digits and
underscores, maps the empty string to the empty string, and equals the
run-splitting specification `normalizeTagRuns`, in which runs are
classified after `strings.ToLower`: every maximal run of characters whose
lowercased form is not an ASCII alphanumeric is replaced by exactly one
underscore, and the remaining runs are lowercased and kept.  The amendment
is only the classification point forced by the counterexample: Go's case
mapping sends U+212A and U+0130 into ASCII (`k`, `i`), so those two
characters behave as alphanumerics rather than being replaced; for every
other character the lowered class agrees with the raw ASCII class. -/
theorem normalizeTag_total_charset_runs (s : String) :
    normalizeTag s = normalizeTagRuns s ∧
    (∀ c ∈ (normalizeTag s).toList, isLabelChar c = true) ∧
    normalizeTag "" = "" := by
  refine ⟨?_, ?_, by decide⟩
  · show (⟨collapseAux false (s.toList.map toLowerGo)⟩ : String) = _
    unfold normalizeTagRuns
    exact congrArg (fun l => (⟨l⟩ : String)) (collapse_eq_runs s.toList)
  · intro c hc
    exact labelChars_of_normalized s.toList c hc

/-- Instantiation of the C3 theorem at the concrete input "TEst.x"
(normalizing to "test_x"). -/
theorem normalizeTag_total_charset_runs_w :
    normalizeTag "TEst.x" = normalizeTagRuns "TEst.x" ∧ isLabelChar 't' = true :=
  ⟨(normalizeTag_total_charset_runs "TEst.x").1,
   (normalizeTag_total_charset_runs "TEst.x").2.1 't' (by decide)⟩

/-- Claim C4: `normalizeTag` is idempotent; in particular every
already-normalized string (any value of `normalizeTag`) is a fixed point. -/
theorem normalizeTag_idempotent (s : String) :
    normalizeTag (normalizeTag s) = normalizeTag s := by
  unfold normalizeTag replaceNonAlnumRuns
  refine congrArg (fun l => (⟨l⟩ : String)) ?_
  show collapseAux false ((collapseAux false (s.toList.map toLowerGo)).map toLowerGo) = _
  have hout := labelChars_of_normalized s.toList
  have hmap : (collapseAux false (s.toList.map toLowerGo)).map toLowerGo =
      (collapseAux false (s.toList.map toLowerGo)).map id :=
    List.map_congr_left (fun a ha => toLowerGo_of_labelChar (hout a ha))
  rw [hmap, List.map_id]
  exact collapse_id _ hout (collapse_chain _ false)

/-! ## Claim C10: queueNameFromUrl -/

theorem goLastIndexSlash_bounds :
    ∀ l : List Char, -1 ≤ goLastIndexSlash l ∧
      goLastIndexSlash l + 1 ≤ (l.length : Int)
  | [] => by simp [goLastIndexSlash]
  | c :: cs => by
    have ih := goLastIndexSlash_bounds cs
    simp only [goLastIndexSlash, List.length_cons]
    split
    · omega
    · split <;> omega

theorem goLastIndexSlash_of_not_mem :
    ∀ l : List Char, '/' ∉ l → goLastIndexSlash l = -1
  | [], _ => rfl
  | c :: cs, h => by
    have hcs : '/' ∉ cs := fun hm => h (List.mem_cons_of_mem c hm)
    have hc : ¬ c = '/' := fun he => h (he ▸ List.mem_cons_self c cs)
    simp only [goLastIndexSlash]
    rw [goLastIndexSlash_of_not_mem cs hcs]
    norm_num
    exact hc

theorem goLastIndexSlash_of_mem :
    ∀ l : List Char, '/' ∈ l → 0 ≤ goLastIndexSlash l
  | [], h => absurd h (List.not_mem_nil _)
  | c :: cs, h => by
    simp only [goLastIndexSlash]
    by_cases h0 : 0 ≤ goLastIndexSlash cs
    · rw [if_pos h0]
      omega
    · rw [if_neg h0]
      rcases List.mem_cons.mp h with he | hm
      · rw [if_pos he.symm]
      · exact absurd (goLastIndexSlash_of_mem cs hm) h0

theorem drop_after_goLastIndexSlash :
    ∀ l : List Char, '/' ∈ l →
      (∃ pre, l = pre ++ '/' :: l.drop (goLastIndexSlash l + 1).toNat) ∧
        '/' ∉ l.drop (goLastIndexSlash l + 1).toNat
  | c :: cs, h => by
    by_cases hm : '/' ∈ cs
    · have ih := drop_after_goLastIndexSlash cs hm
      have h0 : 0 ≤ goLastIndexSlash cs := goLastIndexSlash_of_mem cs hm
      have hgl : goLastIndexSlash (c :: cs) = goLastIndexSlash cs + 1 := by
        simp only [goLastIndexSlash]
        rw [if_pos h0]
      have htn : (goLastIndexSlash cs + 1 + 1).toNat =
          (goLastIndexSlash cs + 1).toNat + 1 := by omega
      have hdrop : (c :: cs).drop (goLastIndexSlash (c :: cs) + 1).toNat =
          cs.drop (goLastIndexSlash cs + 1).toNat := by
        rw [hgl, htn, List.drop_succ_cons]
      rw [hdrop]
      obtain ⟨⟨pre, hpre⟩, hnot⟩ := ih
      exact ⟨⟨c :: pre, by rw [List.cons_append, ← hpre]⟩, hnot⟩
    · have hc : c = '/' := by
        rcases List.mem_cons.mp h with he | hm'
        · exact he.symm
        · exact absurd hm' hm
      have hneg : goLastIndexSlash cs = -1 := goLastIndexSlash_of_not_mem cs hm
      have hgl : goLastIndexSlash (c :: cs) = 0 := by
        simp only [goLastIndexSlash]
        rw [hneg]
        norm_num
        exact hc
      rw [hgl]
      norm_num
      exact ⟨⟨[], by rw [List.nil_append, hc]⟩, hm⟩

/-- Claim C10: `queueNameFromUrl` is total; with no '/' in the input it
returns the input unchanged; with at least one '/' it returns the suffix
after the last '/' (which itself contains no '/'); and the slice index it
uses, `strings.LastIndex(url, "/") + 1`, always lies within `[0, len]`. -/
theorem queueNameFromUrl_spec (url : String) :
    ('/' ∉ url.toList → queueNameFromUrl url = url) ∧
    ('/' ∈ url.toList →
      (∃ pre, url.toList = pre ++ '/' :: (queueNameFromUrl url).toList) ∧
        '/' ∉ (queueNameFromUrl url).toList) ∧
    (0 ≤ goLastIndexSlash url.toList + 1 ∧
      goLastIndexSlash url.toList + 1 ≤ (url.toList.length : Int)) := by
  refine ⟨?_, ?_, ?_⟩
  · intro h
    unfold queueNameFromUrl
    rw [goLastIndexSlash_of_not_mem _ h]
    norm_num
  · intro h
    exact drop_after_goLastIndexSlash url.toList h
  · have hb := goLastIndexSlash_bounds url.toList
    omega

/-- Instantiation of the C10 theorem at a concrete queue URL and at a
slash-free string. -/
theorem queueNameFromUrl_spec_w :
    queueNameFromUrl "noslash" = "noslash" ∧
    ((∃ pre, "https://sqs.eu-west-1.amazonaws.com/1234/my-queue".toList =
        pre ++ '/' ::
          (queueNameFromUrl "https://sqs.eu-west-1.amazonaws.com/1234/my-queue").toList) ∧
      '/' ∉ (queueNameFromUrl "https://sqs.eu-west-1.amazonaws.com/1234/my-queue").toList) :=
  ⟨(queueNameFromUrl_spec "noslash").1 (by decide),
   (queueNameFromUrl_spec "https://sqs.eu-west-1.amazonaws.com/1234/my-queue").2.1
     (by decide)⟩

/-! ## Claim C2: missing datapoint is age 0, not an error -/

/-- Claim C2: whenever the statistics query succeeds at the transport level
but carries no datapoint for the trailing window, `QueueAgeOfOldestMessage`
returns age 0 and no error (and issues exactly the one statistics call). -/
theorem queueAge_missing_datapoint_is_zero (env : AwsEnv) (queueName : String)
    (h : env.getMetricStatisticsResp queueName = .ok none) :
    QueueAgeOfOldestMessage env queueName =
      (.ok 0, [RemoteCall.getMetricStatisticsCall queueName]) := by
  unfold QueueAgeOfOldestMessage
  rw [h]

/-- A remote environment whose statistics responses carry no datapoint. -/
def envNoData : AwsEnv :=
  { listQueuesResp := .ok ["https://sqs.eu-west-1.amazonaws.com/1234/fresh-queue"],
    listQueueTagsResp := fun _ => .ok [],
    getQueueAttributesResp := fun _ => .ok ⟨"3", "0"⟩,
    getMetricStatisticsResp := fun _ => .ok none }

/-- Instantiation of the C2 theorem at a concrete environment. -/
theorem queueAge_missing_datapoint_is_zero_w :
    QueueAgeOfOldestMessage envNoData "fresh-queue" =
      (.ok 0, [RemoteCall.getMetricStatisticsCall "fresh-queue"]) :=
  queueAge_missing_datapoint_is_zero envNoData "fresh-queue" rfl

/-! ## Claim C5: depth 0 skips the age lookup -/

/-- Claim C5: when the fetched depth parses to 0 (and the in-flight count
parses), the enrichment returns a snapshot whose age is 0 and its only
remote call is the attribute fetch — no statistics call; conversely a
statistics call is only ever issued when the parsed depth is positive. -/
theorem fetch_depth_zero_skips_age_lookup (env : AwsEnv) (q : sqsQueue) :
    (∀ attrs inFlight,
      env.getQueueAttributesResp q.Url = .ok attrs →
      goParseInt64 attrs.approximateNumberOfMessages = .ok 0 →
      goParseInt64 attrs.approximateNumberOfMessagesNotVisible = .ok inFlight →
      (∃ m, (fetchQueuesMetrics env q).1 = .ok m ∧
        m.AgeOfOldestMessageSeconds = 0 ∧ m.Messages = 0) ∧
      (fetchQueuesMetrics env q).2 = [RemoteCall.getQueueAttributesCall q.Url]) ∧
    (∀ n, RemoteCall.getMetricStatisticsCall n ∈ (fetchQueuesMetrics env q).2 →
      ∃ attrs v, env.getQueueAttributesResp q.Url = .ok attrs ∧
        goParseInt64 attrs.approximateNumberOfMessages = .ok v ∧ 0 < v) := by
  constructor
  · intro attrs inFlight h1 h2 h3
    unfold fetchQueuesMetrics
    simp only [h1, h2, h3]
    norm_num
  · intro n hn
    unfold fetchQueuesMetrics at hn
    cases henv : env.getQueueAttributesResp q.Url with
    | error e =>
      simp only [henv] at hn
      simp at hn
    | ok attrs =>
      simp only [henv] at hn
      cases hp1 : goParseInt64 attrs.approximateNumberOfMessages with
      | error e =>
        simp only [hp1] at hn
        simp at hn
      | ok v =>
        simp only [hp1] at hn
        cases hp2 : goParseInt64 attrs.approximateNumberOfMessagesNotVisible with
        | error e =>
          simp only [hp2] at hn
          simp at hn
        | ok f =>
          simp only [hp2] at hn
          by_cases hv : 0 < v
          · exact ⟨attrs, v, rfl, hp1, hv⟩
          · rw [if_neg hv] at hn
            simp at hn

/-- A remote environment with an empty queue; its statistics endpoint would
error if it were ever consulted. -/
def envDepthZero : AwsEnv :=
  { listQueuesResp := .ok ["https://sqs.eu-west-1.amazonaws.com/1234/q0"],
    listQueueTagsResp := fun _ => .ok [],
    getQueueAttributesResp := fun _ => .ok ⟨"0", "3"⟩,
    getMetricStatisticsResp := fun _ => .error "statistics endpoint consulted" }

def qDepthZero : sqsQueue :=
  { Name := "q0", Url := "https://sqs.eu-west-1.amazonaws.com/1234/q0", Tags := [] }

/-- Instantiation of the C5 theorem at a concrete empty queue. -/
theorem fetch_depth_zero_skips_age_lookup_w :
    (∃ m, (fetchQueuesMetrics envDepthZero qDepthZero).1 = .ok m ∧
      m.AgeOfOldestMessageSeconds = 0 ∧ m.Messages = 0) ∧
    (fetchQueuesMetrics envDepthZero qDepthZero).2 =
      [RemoteCall.getQueueAttributesCall qDepthZero.Url] :=
  (fetch_depth_zero_skips_age_lookup envDepthZero qDepthZero).1 ⟨"0", "3"⟩ 3
    rfl rfl rfl

/-! ## Claim C6: total gauge is recomputed at publish time -/

theorem wrap64_of_range {x : Int} (h1 : -(2 ^ 63) ≤ x) (h2 : x < 2 ^ 63) :
    wrap64 x = x := by
  unfold wrap64
  omega

/-- The per-queue enrichment never populates `MessagesTotal`: the Go struct
literal omits the field, leaving the int64 zero value. -/
theorem fetchQueuesMetrics_total_field (env : AwsEnv) (q : sqsQueue)
    (mm : QueueMetric) (h : (fetchQueuesMetrics env q).1 = .ok mm) :
    mm.MessagesTotal = 0 := by
  unfold fetchQueuesMetrics at h
  cases henv : env.getQueueAttributesResp q.Url with
  | error e =>
    simp only [henv] at h
    simp at h
  | ok attrs =>
    simp only [henv] at h
    cases hp1 : goParseInt64 attrs.approximateNumberOfMessages with
    | error e =>
      simp only [hp1] at h
      simp at h
    | ok v =>
      simp only [hp1] at h
      cases hp2 : goParseInt64 attrs.approximateNumberOfMessagesNotVisible with
      | error e =>
        simp only [hp2] at h
        simp at h
      | ok f =>
        simp only [hp2] at h
        by_cases hv : 0 < v
        · rw [if_pos hv] at h
          cases hA : QueueAgeOfOldestMessage env q.Name with
          | mk r cs =>
            rw [hA] at h
            cases r with
            | error e => simp at h
            | ok age =>
              simp at h
              rw [← h]
        · rw [if_neg hv] at h
          simp at h
          rw [← h]

/-- Claim C6: the publish step sets the total gauge to the int64 sum of the
two fetched counts, recomputed on the spot — equal to the mathematical
`depth + inFlight` whenever that sum is within the int64 range — and it is
entirely independent of the snapshot's stored `MessagesTotal` field, which
the enrichment never populates. -/
theorem total_gauge_recomputed (exportedTags : List queueTag) (st : GaugeState)
    (m : QueueMetric) :
    ((publishMetric exportedTags st m).queueMessageTotalsGauge
        (metricLabels exportedTags m) =
      some (wrap64 (m.Messages + m.MessagesInFlight))) ∧
    (-(2 ^ 63) ≤ m.Messages + m.MessagesInFlight →
      m.Messages + m.MessagesInFlight < 2 ^ 63 →
      (publishMetric exportedTags st m).queueMessageTotalsGauge
          (metricLabels exportedTags m) =
        some (m.Messages + m.MessagesInFlight)) ∧
    (∀ v, publishMetric exportedTags st { m with MessagesTotal := v } =
      publishMetric exportedTags st m) ∧
    (∀ env q mm, (fetchQueuesMetrics env q).1 = .ok mm → mm.MessagesTotal = 0) := by
  refine ⟨?_, ?_, ?_, ?_⟩
  · simp [publishMetric, setGauge]
  · intro h1 h2
    simp [publishMetric, setGauge, wrap64_of_range h1 h2]
  · intro v
    rfl
  · exact fetchQueuesMetrics_total_field

/-- An all-empty gauge state (the state right after registration, before any
publish). -/
def st0 : GaugeState :=
  { queueMessagesGauge := fun _ => none,
    queueAgeOfOldestMessageGauge := fun _ => none,
    queueMessagesInFlightGauge := fun _ => none,
    queueMessageTotalsGauge := fun _ => none }

def mSample : QueueMetric :=
  { QueueName := "orders", Tags := [], Messages := 5, MessagesInFlight := 2,
    AgeOfOldestMessageSeconds := 42, MessagesTotal := 0 }

/-- Instantiation of the C6 theorem at a concrete snapshot: the total gauge
receives 5 + 2 = 7, and a concretely fetched snapshot has `MessagesTotal`
zero. -/
theorem total_gauge_recomputed_w :
    ((publishMetric [] st0 mSample).queueMessageTotalsGauge
        (metricLabels [] mSample) =
      some (mSample.Messages + mSample.MessagesInFlight)) ∧
    ({ QueueName := "q0", Tags := [], Messages := 0, MessagesInFlight := 3,
       AgeOfOldestMessageSeconds := 0, MessagesTotal := 0 } :
        QueueMetric).MessagesTotal = 0 :=
  ⟨(total_gauge_recomputed [] st0 mSample).2.1 (by decide) (by decide),
   (total_gauge_recomputed [] st0 mSample).2.2.2 envDepthZero qDepthZero _ rfl⟩

/-! ## Claim C7: identical label names across queues -/

theorem metricLabels_names (exportedTags : List queueTag) (m : QueueMetric) :
    (metricLabels exportedTags m).map Prod.fst =
      "queue_name" :: exportedTags.map (fun t => t.Normalized) := by
  simp [metricLabels, List.map_map]

theorem lookupTag_of_find?_none {tags : List (String × String)} {k : String}
    (h : tags.find? (fun p => p.1 == k) = none) : lookupTag tags k = "" := by
  simp [lookupTag, h]

/-- Claim C7: within one cycle the label sets published for any two queues
carry exactly the same label names — `queue_name` plus the normalized name
of each configured exported tag, exactly the names the gauges were
registered with at startup — and a queue lacking a configured tag still
carries that label with the empty-string value. -/
theorem label_sets_uniform (cfg : List String) (m1 m2 : QueueMetric) :
    ((metricLabels (cfg.map createQueueTag) m1).map Prod.fst =
      exporterLabelNames cfg) ∧
    ((metricLabels (cfg.map createQueueTag) m1).map Prod.fst =
      (metricLabels (cfg.map createQueueTag) m2).map Prod.fst) ∧
    (∀ t ∈ cfg.map createQueueTag,
      m1.Tags.find? (fun p => p.1 == t.Original) = none →
      (t.Normalized, "") ∈ metricLabels (cfg.map createQueueTag) m1) := by
  refine ⟨?_, ?_, ?_⟩
  · rw [metricLabels_names]
    rfl
  · rw [metricLabels_names, metricLabels_names]
  · intro t ht hfind
    have hmem : (t.Normalized, lookupTag m1.Tags t.Original) ∈
        metricLabels (cfg.map createQueueTag) m1 :=
      List.mem_cons_of_mem _
        (List.mem_map_of_mem (fun u => (u.Normalized, lookupTag m1.Tags u.Original)) ht)
    rwa [lookupTag_of_find?_none hfind] at hmem

def mNoTag : QueueMetric :=
  { QueueName := "untagged", Tags := [], Messages := 0, MessagesInFlight := 0,
    AgeOfOldestMessageSeconds := 0, MessagesTotal := 0 }

/-- Instantiation of the C7 theorem: with exported tag "Owner" configured, a
queue without that tag still publishes the label ("owner", ""). -/
theorem label_sets_uniform_w :
    ((createQueueTag "Owner").Normalized, "") ∈
      metricLabels (["Owner"].map createQueueTag) mNoTag :=
  (label_sets_uniform ["Owner"] mNoTag mNoTag).2.2 (createQueueTag "Owner")
    (by decide) rfl

/-! ## Claim C8: a failed cycle leaves the gauges untouched -/

/-- Claim C8: whenever `QueuesMetrics` returns an error, `Sync` returns that
same error and performs no gauge `Set`: the gauge state it returns is the
previous one, unchanged. -/
theorem sync_error_leaves_gauges (env : AwsEnv) (exportedTags : List queueTag)
    (st : GaugeState) (e : String)
    (h : (QueuesMetrics env exportedTags).1 = .fail e) :
    Sync env exportedTags st = (.fail e, st) := by
  cases hq : QueuesMetrics env exportedTags with
  | mk r cs =>
    rw [hq] at h
    have hr : r = .fail e := h
    subst hr
    unfold Sync
    rw [hq]

/-- A remote environment whose queue listing fails outright. -/
def envListFail : AwsEnv :=
  { listQueuesResp := .error "AccessDenied",
    listQueueTagsResp := fun _ => .ok [],
    getQueueAttributesResp := fun _ => .ok ⟨"0", "0"⟩,
    getMetricStatisticsResp := fun _ => .ok none }

/-- Instantiation of the C8 theorem: a discovery failure propagates and the
gauge state is returned unchanged. -/
theorem sync_error_leaves_gauges_w :
    Sync envListFail [] st0 = (.fail "AccessDenied", st0) :=
  sync_error_leaves_gauges envListFail [] st0 "AccessDenied" rfl

/-! ## Claim C9: includeTags wiring -/

theorem queueAge_calls (env : AwsEnv) (n : String) :
    (QueueAgeOfOldestMessage env n).2 = [RemoteCall.getMetricStatisticsCall n] := by
  unfold QueueAgeOfOldestMessage
  cases hs : env.getMetricStatisticsResp n with
  | error e => rfl
  | ok o => cases o <;> rfl

/-- The per-queue enrichment issues attribute and statistics calls only,
never a tag fetch. -/
theorem fetch_no_tags_call (env : AwsEnv) (q : sqsQueue) (url : String) :
    RemoteCall.listQueueTagsCall url ∉ (fetchQueuesMetrics env q).2 := by
  intro hmem
  unfold fetchQueuesMetrics at hmem
  cases henv : env.getQueueAttributesResp q.Url with
  | error e =>
    simp only [henv] at hmem
    simp at hmem
  | ok attrs =>
    simp only [henv] at hmem
    cases hp1 : goParseInt64 attrs.approximateNumberOfMessages with
    | error e =>
      simp only [hp1] at hmem
      simp at hmem
    | ok v =>
      simp only [hp1] at hmem
      cases hp2 : goParseInt64 attrs.approximateNumberOfMessagesNotVisible with
      | error e =>
        simp only [hp2] at hmem
        simp at hmem
      | ok f =>
        simp only [hp2] at hmem
        by_cases hv : 0 < v
        · rw [if_pos hv] at hmem
          cases hA : QueueAgeOfOldestMessage env q.Name with
          | mk r cs =>
            have hcs : cs = [RemoteCall.getMetricStatisticsCall q.Name] := by
              have hsnd := congrArg Prod.snd hA
              rw [queueAge_calls] at hsnd
              exact hsnd.symm
            rw [hA] at hmem
            subst hcs
            cases r with
            | error e => simp at hmem
            | ok age => simp at hmem
        · rw [if_neg hv] at hmem
          simp at hmem

theorem listQueuesLoop_false (env : AwsEnv) :
    ∀ urls : List String,
      (listQueuesLoop env false urls).2 = [] ∧
      (∀ qs, (listQueuesLoop env false urls).1 = .ok qs → ∀ q ∈ qs, q.Tags = [])
  | [] => by
    refine ⟨rfl, ?_⟩
    intro qs h q hq
    simp only [listQueuesLoop] at h
    cases h
    simp at hq
  | url :: rest => by
    have ih := listQueuesLoop_false env rest
    simp only [listQueuesLoop, Bool.false_eq_true, if_false]
    constructor
    · exact ih.1
    · intro qs h q hq
      cases hnext : (listQueuesLoop env false rest).1 with
      | error e =>
        rw [hnext] at h
        simp [Except.map] at h
      | ok qs' =>
        rw [hnext] at h
        simp only [Except.map] at h
        cases h
        rcases List.mem_cons.mp hq with rfl | hq'
        · rfl
        · exact ih.2 qs' hnext q hq'

/-- With `includeTags = false`, discovery issues exactly the one ListQueues
call: no tag fetch for any queue. -/
theorem listQueues_false_calls (env : AwsEnv) :
    (listQueues env { includeTags := false }).2 = [RemoteCall.listQueuesCall] := by
  unfold listQueues
  cases hlr : env.listQueuesResp with
  | error e => rfl
  | ok urls =>
    simp only []
    rw [(listQueuesLoop_false env urls).1]

/-- With `includeTags = false`, every discovered queue carries an empty tag
map. -/
theorem listQueues_false_tags_empty (env : AwsEnv) (qs : List sqsQueue)
    (h : (listQueues env { includeTags := false }).1 = .ok qs) :
    ∀ q ∈ qs, q.Tags = [] := by
  unfold listQueues at h
  cases hlr : env.listQueuesResp with
  | error e =>
    rw [hlr] at h
    simp at h
  | ok urls =>
    rw [hlr] at h
    exact (listQueuesLoop_false env urls).2 qs h

/-- With `includeTags = false`, a whole collection cycle never issues a tag
fetch. -/
theorem queuesMetricsWith_false_no_tag_calls (env : AwsEnv) (url : String) :
    RemoteCall.listQueueTagsCall url ∉
      (QueuesMetricsWith env { includeTags := false }).2 := by
  intro hmem
  unfold QueuesMetricsWith at hmem
  cases hlq : listQueues env { includeTags := false } with
  | mk r cs =>
    have hcs : cs = [RemoteCall.listQueuesCall] := by
      have hsnd := congrArg Prod.snd hlq
      rw [listQueues_false_calls] at hsnd
      exact hsnd.symm
    rw [hlq] at hmem
    subst hcs
    cases r with
    | error e => simp at hmem
    | ok queues =>
      simp only [apply_ite Prod.snd, ite_self] at hmem
      rcases List.mem_append.mp hmem with hL | hR
      · simp at hL
      · obtain ⟨l, hl, hul⟩ := List.mem_flatten.mp hR
        obtain ⟨p, hp, rfl⟩ := List.mem_map.mp hl
        obtain ⟨q, _, rfl⟩ := List.mem_map.mp hp
        exact fetch_no_tags_call env q url hul

/-- Claim C9: the coordinator calls discovery with
`includeTags = (len(exportedTags) > 0)`; with the flag false the discovery
issues no tag-fetch call and returns every queue with an empty tag map, and
a coordinator configured with no exported tags never issues a tag fetch
anywhere in the cycle. -/
theorem includeTags_wiring (env : AwsEnv) (exportedTags : List queueTag) :
    (QueuesMetrics env exportedTags =
      QueuesMetricsWith env { includeTags := decide (0 < exportedTags.length) }) ∧
    ((listQueues env { includeTags := false }).2 = [RemoteCall.listQueuesCall]) ∧
    (∀ qs, (listQueues env { includeTags := false }).1 = .ok qs →
      ∀ q ∈ qs, q.Tags = []) ∧
    (exportedTags = [] →
      ∀ url, RemoteCall.listQueueTagsCall url ∉ (QueuesMetrics env exportedTags).2) := by
  refine ⟨rfl, listQueues_false_calls env, listQueues_false_tags_empty env, ?_⟩
  intro htags url
  subst htags
  exact queuesMetricsWith_false_no_tag_calls env url

set_option maxRecDepth 4000 in
/-- Instantiation of the C9 theorem: with no exported tags configured,
the cycle against a concrete environment issues no tag fetch and returns
the queue with an empty tag map. -/
theorem includeTags_wiring_w :
    (listQueues envNoData { includeTags := false }).2 = [RemoteCall.listQueuesCall] ∧
    ({ Name := "fresh-queue",
       Url := "https://sqs.eu-west-1.amazonaws.com/1234/fresh-queue",
       Tags := [] } : sqsQueue).Tags = ([] : List (String × String)) ∧
    (RemoteCall.listQueueTagsCall
        "https://sqs.eu-west-1.amazonaws.com/1234/fresh-queue" ∉
      (QueuesMetrics envNoData []).2) :=
  ⟨(includeTags_wiring envNoData []).2.1,
   (includeTags_wiring envNoData []).2.2.1
     [{ Name := "fresh-queue",
        Url := "https://sqs.eu-west-1.amazonaws.com/1234/fresh-queue",
        Tags := [] }] rfl _ (List.mem_singleton.mpr rfl),
   (includeTags_wiring envNoData []).2.2.2 rfl
     "https://sqs.eu-west-1.amazonaws.com/1234/fresh-queue"⟩

/-! ## Claim C1: an enrichment error crashes the cycle instead of
returning the error

In the Go fan-out a failed enrichment sends its error to the error channel
and then still sends its nil result pointer to the results channel; the
collection loop dereferences every received pointer before the error
channel is read, so one failed queue makes `QueuesMetrics` panic with a nil
pointer dereference — it never reaches its `return nil, err` for
enrichment errors, and the process crashes rather than logging the error
and keeping the previous gauge values. -/

/-- Two queues; attribute fetch fails for the second and succeeds for the
first. -/
def envCrash : AwsEnv :=
  { listQueuesResp := .ok ["https://sqs.eu-west-1.amazonaws.com/1234/queue-ok",
                           "https://sqs.eu-west-1.amazonaws.com/1234/queue-bad"],
    listQueueTagsResp := fun _ => .ok [],
    getQueueAttributesResp := fun url =>
      if url = "https://sqs.eu-west-1.amazonaws.com/1234/queue-bad" then
        .error "RequestError: send request failed"
      else .ok ⟨"5", "2"⟩,
    getMetricStatisticsResp := fun _ => .ok (some 42) }

/-- Claim C1 (evaluation of the code at the failing input): with one queue
whose enrichment succeeds and a sibling whose attribute fetch returns a
transport error, the collection does not return that error — it panics on
the nil result pointer (a crash, modelled by `GoOutcome.crash`), and `Sync`
accordingly propagates the panic with the gauges untouched rather than
returning an error. -/
theorem queuesMetrics_crashes_on_enrichment_error :
    (fetchQueuesMetrics envCrash
        { Name := "queue-ok",
          Url := "https://sqs.eu-west-1.amazonaws.com/1234/queue-ok",
          Tags := [] }).1 =
      .ok { QueueName := "queue-ok", Tags := [], Messages := 5,
            MessagesInFlight := 2, AgeOfOldestMessageSeconds := 42,
            MessagesTotal := 0 } ∧
    (fetchQueuesMetrics envCrash
        { Name := "queue-bad",
          Url := "https://sqs.eu-west-1.amazonaws.com/1234/queue-bad",
          Tags := [] }).1 =
      .error "RequestError: send request failed" ∧
    (QueuesMetrics envCrash []).1 =
      .crash "invalid memory address or nil pointer dereference" ∧
    (Sync envCrash [] st0).2 = st0 :=
  ⟨rfl, rfl, by decide, rfl⟩

end AwsSqsExporter
